import Mathlib

/-!
Verification of the syllabus-to-calendar parsing core.

The repository's core is the parse route (line filter, title extractor,
per-line event resolver, dedup) in `src/app/api/parse/route.ts` plus the
calendar serializer `src/lib/ics.ts`.  Strings are embedded as `List Char`,
JS `Date` values as epoch milliseconds (`Int`), and the external
date/time-extraction capability (chrono-node) as a function parameter
returning candidate spans with per-field certainty flags.
-/

namespace Syl

/-- Strings of the source program, embedded as lists of characters. -/
abbrev Str := List Char

/-- The JavaScript word-character class `\w` = `[A-Za-z0-9_]`. -/
def isWordChar (c : Char) : Bool := c.isAlphanum || c == '_'

/-- The JavaScript whitespace class `\s` (also the set trimmed by `trim()`). -/
def isWsC (c : Char) : Bool :=
  [0x20, 0x9, 0xA, 0xB, 0xC, 0xD, 0xA0, 0x1680, 0x2000, 0x2001, 0x2002,
   0x2003, 0x2004, 0x2005, 0x2006, 0x2007, 0x2008, 0x2009, 0x200A, 0x2028,
   0x2029, 0x202F, 0x205F, 0x3000, 0xFEFF].contains c.toNat

/-- ASCII lower-casing, modelling case-insensitive (`/i`) matching and
`String.prototype.toLowerCase` on the ASCII inputs this program handles. -/
def lc (c : Char) : Char :=
  if 'A' ≤ c ∧ c ≤ 'Z' then Char.ofNat (c.toNat + 32) else c

/-- `String.prototype.trim`: drop leading and trailing whitespace. -/
def jsTrim (s : Str) : Str :=
  ((s.dropWhile isWsC).reverse.dropWhile isWsC).reverse

/-- A small regular-expression abstract syntax covering exactly the
constructs used by the source's patterns: character classes, sequencing,
ordered alternation, word boundaries and greedy star over a class. -/
inductive RE where
  | eps
  | cls (p : Char → Bool)
  | seq (a b : RE)
  | alt (a b : RE)
  | wb
  | starC (p : Char → Bool)

/-- Greedy `?` (prefer consuming, as JS backtracking does). -/
def optR (a : RE) : RE := RE.alt a RE.eps

/-- All ways a greedy `p*` can consume a prefix, longest first.  The first
component tracks the previously consumed character (for `\b`). -/
def starRun (p : Char → Bool) : Option Char → Str → List (Option Char × Str)
  | prev, [] => [(prev, [])]
  | prev, c :: rest =>
    if p c then starRun p (some c) rest ++ [(prev, c :: rest)]
    else [(prev, c :: rest)]

/-- Word-character test on an optional character (`none` = outside the string). -/
def isWordOpt : Option Char → Bool
  | none => false
  | some c => isWordChar c

/-- JS `\b`: the word-character status changes between the previous and the
next character. -/
def atBoundary (prev : Option Char) (s : Str) : Bool :=
  isWordOpt prev != isWordOpt s.head?

/-- Run a pattern at the current position: all `(last consumed char,
remaining suffix)` pairs, in JS backtracking order (greedy, leftmost
alternative first). -/
def RE.run : RE → Option Char → Str → List (Option Char × Str)
  | .eps, prev, s => [(prev, s)]
  | .cls _, _, [] => []
  | .cls p, _, c :: rest => if p c then [(some c, rest)] else []
  | .seq a b, prev, s => (RE.run a prev s).flatMap fun pr => RE.run b pr.1 pr.2
  | .alt a b, prev, s => RE.run a prev s ++ RE.run b prev s
  | .wb, prev, s => if atBoundary prev s then [(prev, s)] else []
  | .starC p, prev, s => starRun p prev s

/-- `re.test(s)` for an unanchored pattern: does it match at some position? -/
def reSearch (re : RE) : Option Char → Str → Bool
  | prev, [] => !(RE.run re prev []).isEmpty
  | prev, c :: rest => !(RE.run re prev (c :: rest)).isEmpty || reSearch re (some c) rest

/-- `re.test(s)`. -/
def reTest (re : RE) (s : Str) : Bool := reSearch re none s

/-- `s.replace(re, "")` for a `^`-anchored pattern: remove the prefix the
JS engine matches (its backtracking-first match), else leave `s` unchanged. -/
def stripRE (re : RE) (s : Str) : Str :=
  match RE.run re none s with
  | [] => s
  | pr :: _ => pr.2

/-- Case-insensitive literal word as a pattern. -/
def litCI (w : Str) : RE :=
  w.foldr (fun ch r => RE.seq (RE.cls fun c => lc c == lc ch) r) RE.eps

/-- Single-character literal pattern. -/
def chC (ch : Char) : RE := RE.cls fun c => c == ch

/-- Sequence a list of patterns. -/
def seqL (l : List RE) : RE := l.foldr RE.seq RE.eps

/-- Ordered alternation over a list of patterns. -/
def altL : List RE → RE
  | [] => RE.cls fun _ => false
  | [r] => r
  | r :: rs => RE.alt r (altL rs)

/-- `\d`. -/
def dig : RE := RE.cls Char.isDigit

/-- `\d{1,2}` (greedy). -/
def dig12 : RE := RE.seq dig (optR dig)

/-- A single `\s`. -/
def wsC : RE := RE.cls isWsC

/-- `(am|pm)` case-insensitively. -/
def ampm : RE := RE.alt (litCI ['a', 'm']) (litCI ['p', 'm'])

/-- Does `a` begin with pattern-free literal `n`? (`==` on chars). -/
def begins : Str → Str → Bool
  | [], _ => true
  | _ :: _, [] => false
  | a :: as, b :: bs => a == b && begins as bs

/-- `hay.includes(n)`: substring containment. -/
def containsSub (n : Str) : Str → Bool
  | [] => begins n []
  | c :: rest => begins n (c :: rest) || containsSub n rest

/-- The pattern `\b(due|deadline)\b` (case-insensitive), used both by the
line filter and to classify deadlines. -/
def dueRe : RE :=
  seqL [RE.wb, altL [litCI "due".toList, litCI "deadline".toList], RE.wb]

/-- `isDeadline` in the parse route: `/\b(due|deadline)\b/i.test(line)`. -/
def isDeadlineT (line : Str) : Bool := reTest dueRe line

/-- `(\b\d{1,2}:\d{2}\s?(am|pm)?\b)`: first alternative of the
time-token pattern. -/
def timeTokA : RE :=
  seqL [RE.wb, dig12, chC ':', dig, dig, optR wsC, optR ampm, RE.wb]

/-- `(\b\d{1,2}\s?(am|pm)\b)`: second alternative of the time-token pattern. -/
def timeTokB : RE := seqL [RE.wb, dig12, optR wsC, ampm, RE.wb]

/-- `hasTimeToken` in the parse route:
`/(\b\d{1,2}:\d{2}\s?(am|pm)?\b)|(\b\d{1,2}\s?(am|pm)\b)/i.test(line)`. -/
def timeTokT (line : Str) : Bool := reTest (RE.alt timeTokA timeTokB) line

/-- The hint vocabulary `HINTS` of the parse route. -/
def HINTS : List Str :=
  ["exam", "quiz", "midterm", "final", "assignment", "project", "paper",
   "hw", "reading", "presentation", "lab", "report"].map String.toList

/-- The month-name alternation used by `isDatey` (source order). -/
def monthAlt : RE :=
  altL (["jan", "feb", "mar", "apr", "may", "jun", "jul", "aug", "sep",
         "sept", "oct", "nov", "dec"].map fun s => litCI s.toList)

/-- `\b\d{1,2}\/\d{1,2}\b` (slash date). -/
def slashDateRe : RE := seqL [RE.wb, dig12, chC '/', dig12, RE.wb]

/-- `(?:jan|...|dec)\w*\s+\d{1,2}` (month name followed by a day). -/
def monthNameRe : RE :=
  seqL [monthAlt, RE.starC isWordChar, wsC, RE.starC isWsC, dig12]

/-- `\b(exam|quiz|midterm|final)\b`. -/
def examRe : RE :=
  seqL [RE.wb,
        altL [litCI "exam".toList, litCI "quiz".toList,
              litCI "midterm".toList, litCI "final".toList], RE.wb]

/-- `\b\d+\b` (a standalone number). -/
def numRe : RE := seqL [RE.wb, dig, RE.starC Char.isDigit, RE.wb]

/-- `isDatey` from the parse route: keep only lines that look like they
contain a real date or a strong event cue. -/
def isDatey (line : Str) : Bool :=
  let l := line.map lc
  let hasSlashDate := reTest slashDateRe l
  let hasMonthName := reTest monthNameRe l
  let hasDue := reTest dueRe l
  let hasExamWord := reTest examRe l
  let hasOtherHint := HINTS.any fun h => containsSub h l
  let hasAnyNumber := reTest numRe l
  hasSlashDate || hasMonthName || hasDue || hasExamWord ||
    (hasOtherHint && hasAnyNumber)

/-- Is a character one of the three dashes of `line.split(/\s[–—-]\s/)`:
en dash, em dash, hyphen? -/
def isDashC (c : Char) : Bool := c == '–' || c == '—' || c == '-'

/-- `line.split(/\s[–—-]\s/)`: left-to-right scan, a whitespace--dash--
whitespace triple separates fields.  `acc` holds the current field reversed. -/
def splitGo (acc : Str) : Str → List Str
  | a :: b :: c :: rest =>
    if isWsC a && isDashC b && isWsC c then acc.reverse :: splitGo [] rest
    else splitGo (a :: acc) (b :: c :: rest)
  | [a] => [(a :: acc).reverse]
  | [a, b] => [(b :: a :: acc).reverse]
  | [] => [acc.reverse]

/-- `parts.join(sep)`. -/
def joinSep (sep : Str) : List Str → Str
  | [] => []
  | [x] => x
  | x :: xs => x ++ sep ++ joinSep sep xs

/-- `/^\s*\b(mon|tue|tues|wed|thu|thur|thurs|fri|sat|sun)\b\.?,?\s+/i`
(leading weekday). -/
def weekdayRe : RE :=
  seqL [RE.starC isWsC, RE.wb,
        altL (["mon", "tue", "tues", "wed", "thu", "thur", "thurs", "fri",
               "sat", "sun"].map fun s => litCI s.toList),
        RE.wb, optR (chC '.'), optR (chC ','), wsC, RE.starC isWsC]

/-- `/^(?:jan|...|dec)[a-z]*\s+\d{1,2}\s*/i` (leading month-name day). -/
def monthDayRe : RE :=
  seqL [monthAlt, RE.starC Char.isAlpha, wsC, RE.starC isWsC, dig12,
        RE.starC isWsC]

/-- `/^\d{1,2}\/\d{1,2}\s*/` (leading slash date). -/
def slashRe : RE := seqL [dig12, chC '/', dig12, RE.starC isWsC]

/-- `(:\d{2})?`. -/
def optColonMM : RE := optR (seqL [chC ':', dig, dig])

/-- `/^\d{1,2}(:\d{2})?\s?(am|pm)?\s*(–|-)\s*\d{1,2}(:\d{2})?\s?(am|pm)?\s*/i`
(leading time range). -/
def rangeRe : RE :=
  seqL [dig12, optColonMM, optR wsC, optR ampm, RE.starC isWsC,
        RE.alt (chC '–') (chC '-'), RE.starC isWsC,
        dig12, optColonMM, optR wsC, optR ampm, RE.starC isWsC]

/-- `/^\d{1,2}(:\d{2})?\s?(am|pm)\s*/i` (leading single time). -/
def singleTimeRe : RE := seqL [dig12, optColonMM, optR wsC, ampm, RE.starC isWsC]

/-- The separator `" - "` used when rejoining dash-split parts. -/
def dashJoinSep : Str := [' ', '-', ' ']

/-- `extractTitle` from the parse route: prefer text after a spaced dash,
otherwise strip leading weekday/date/time tokens; fall back to the trimmed
original line when the stripped remainder trims to nothing. -/
def extractTitle (line : Str) : Str :=
  let parts := splitGo [] line
  if 1 < parts.length then jsTrim (joinSep dashJoinSep parts.tail)
  else
    let s1 := stripRE weekdayRe line
    let s2 := stripRE monthDayRe s1
    let s3 := stripRE slashRe s2
    let s4 := stripRE rangeRe s3
    let s5 := stripRE singleTimeRe s4
    if jsTrim s5 = [] then jsTrim line else jsTrim s5

/-! ### Dates as epoch milliseconds

JS `Date` values are instants: milliseconds since the epoch.  The program
treats them as naive local time (the spec fixes "local/naive — no timezone
attached"), so the embedding uses a fixed zero offset.  Calendar
decomposition and recomposition use the standard civil-from-days /
days-from-civil algorithms with floor division, which also reproduces JS
day-overflow normalization (Feb 29 of a non-leap year rolling to Mar 1). -/

/-- Milliseconds per day. -/
def msPerDay : Int := 86400000

/-- Days since 1970-01-01 for a civil date (month 1..12 as the program
renders it; day counted linearly, so out-of-range days normalize forward). -/
def daysFromCivil (y : Int) (m d : Nat) : Int :=
  let y' : Int := if m ≤ 2 then y - 1 else y
  let era : Int := Int.fdiv y' 400
  let yoe : Int := y' - era * 400
  let mp : Int := if 2 < m then (m : Int) - 3 else (m : Int) + 9
  let doy : Int := Int.fdiv (153 * mp + 2) 5 + (d : Int) - 1
  let doe : Int := yoe * 365 + Int.fdiv yoe 4 - Int.fdiv yoe 100 + doy
  era * 146097 + doe - 719468

/-- Civil date (year, month 1..12, day 1..31) from days since 1970-01-01. -/
def civilFromDays (z : Int) : Int × Nat × Nat :=
  let n := z + 719468
  let era := Int.fdiv n 146097
  let doe := n - era * 146097
  let yoe := Int.fdiv (doe - Int.fdiv doe 1460 + Int.fdiv doe 36524
                        - Int.fdiv doe 146096) 365
  let y := yoe + era * 400
  let doy := doe - (365 * yoe + Int.fdiv yoe 4 - Int.fdiv yoe 100)
  let mp := Int.fdiv (5 * doy + 2) 153
  let d := doy - Int.fdiv (153 * mp + 2) 5 + 1
  let m := if mp < 10 then mp + 3 else mp - 9
  (if m ≤ 2 then y + 1 else y, m.toNat, d.toNat)

/-- The calendar view of an instant: year, month (1..12), day, hour,
minute, second, millisecond. -/
structure CivilDT where
  y : Int
  mo : Nat
  d : Nat
  h : Nat
  mi : Nat
  s : Nat
  msec : Nat
deriving DecidableEq

/-- Decompose an instant into its calendar view (the JS `get*` accessors). -/
def decomposeMs (ms : Int) : CivilDT :=
  let cd := civilFromDays (Int.fdiv ms msPerDay)
  let r := (Int.fmod ms msPerDay).toNat
  ⟨cd.1, cd.2.1, cd.2.2, r / 3600000, r % 3600000 / 60000, r % 60000 / 1000,
   r % 1000⟩

/-- Build the instant of a civil date-time (seconds and milliseconds zero). -/
def mkMs (y : Int) (mo d h mi : Nat) : Int :=
  daysFromCivil y mo d * msPerDay + ((h * 60 + mi) * 60000 : Nat)

/-- JS `Date.prototype.setFullYear(y)`: keep month, day-of-month and
time-of-day, replace the year (with `MakeDay` linear normalization). -/
def setFullYear (ms y : Int) : Int :=
  let c := decomposeMs ms
  daysFromCivil y c.mo c.d * msPerDay + Int.fmod ms msPerDay

/-- Decimal digits of a natural number. -/
def natToStr (n : Nat) : Str := (toString n).toList

/-- Decimal rendering of an integer. -/
def intToStr (i : Int) : Str :=
  if i < 0 then '-' :: natToStr (-i).toNat else natToStr i.toNat

/-- `String(n).padStart(2, "0")`. -/
def pad2 (n : Nat) : Str :=
  let s := natToStr n
  if s.length = 1 then '0' :: s else s

/-- Zero-pad to a given width (for ISO rendering). -/
def padTo (w : Nat) (n : Nat) : Str :=
  let s := natToStr n
  List.replicate (w - s.length) '0' ++ s

/-- `Date.prototype.toISOString` under the fixed zero offset: the canonical
instant string used as part of the dedup key. -/
def toISO (ms : Int) : Str :=
  let c := decomposeMs ms
  let ys := if 0 ≤ c.y ∧ c.y ≤ 9999 then padTo 4 c.y.toNat
            else if c.y < 0 then '-' :: padTo 6 (-c.y).toNat
            else '+' :: padTo 6 c.y.toNat
  ys ++ '-' :: pad2 c.mo ++ '-' :: pad2 c.d ++ 'T' :: pad2 c.h ++
    ':' :: pad2 c.mi ++ ':' :: pad2 c.s ++ '.' :: padTo 3 c.msec ++ ['Z']

/-! ### The extraction capability (chrono-node)

`chrono.parse(text, ref, {forwardDate: true})` is external to the
repository; the spec treats it as a capability returning candidate spans
with per-field certainty flags.  A component models `r.start` / `r.end`:
its instant, whether `date-fns`'s `isValid` accepts it, and the
`isCertain` flags the resolver consults. -/

/-- One parsed component (`r.start` or `r.end`) of an extraction result. -/
structure ChronoComponent where
  ms : Int
  valid : Bool
  certYear : Bool
  certMonth : Bool
  certDay : Bool
  certHour : Bool
  certMinute : Bool
deriving DecidableEq

/-- One extraction result: a start component and an optional range end. -/
structure ChronoResult where
  rstart : ChronoComponent
  rend : Option ChronoComponent
deriving DecidableEq

/-- The core-facing configuration of the parse route, after the request
body has been destructured: the resolved fallback year `refYear`, the raw
`defaultDurationMinutes` (`none` models absent or not coercible to a
number, i.e. `Number(...)` is `NaN`), and `defaultTime` (`[]` models a
falsy value, which disables the deadline rescue). -/
structure Config where
  fallbackYear : Int
  defaultDurationMinutes : Option Int
  defaultTime : Str

/-- `Number(defaultDurationMinutes) || 60`: zero and non-numbers fall back
to 60. -/
def coerceMinutes : Option Int → Int
  | none => 60
  | some v => if v = 0 then 60 else v

/-- A resolved event as the parse route emits it (`start`/`end` kept as
instants; the JSON serialization renders them with `toISO`). -/
structure PEvent where
  title : Str
  startMs : Int
  endMs : Option Int
  allDay : Bool
  sourceLine : Str
deriving DecidableEq

/-- The fallback title `"Course Event"`. -/
def courseEventT : Str := "Course Event".toList

/-- The extraction results the resolver works from: the first parse
attempt, retried with `defaultTime` appended when the line is a deadline
with no explicit time token and the first attempt found nothing. -/
def effResults (cfg : Config) (extract : Str → List ChronoResult)
    (line : Str) : List ChronoResult :=
  let results := extract line
  if results = [] ∧ isDeadlineT line ∧ timeTokT line = false ∧
      cfg.defaultTime ≠ [] then
    extract (line ++ ' ' :: cfg.defaultTime)
  else results

/-- The per-line resolver body of the parse route, applied to the
extraction results for the line: validity and month/day-certainty gates,
year forcing, range handling, the end-instant policy and the all-day flag. -/
def resolveCore (cfg : Config) (line : Str) (results : List ChronoResult) :
    Option PEvent :=
  match results with
  | [] => none
  | r :: _ =>
    if r.rstart.valid then
      if r.rstart.certMonth && r.rstart.certDay then
        let startMs := if r.rstart.certYear then r.rstart.ms
                       else setFullYear r.rstart.ms cfg.fallbackYear
        let hasRange := r.rend.isSome
        let rangeEnd : Option Int :=
          match r.rend with
          | none => none
          | some e =>
            let ems := if e.certYear then e.ms
                       else setFullYear e.ms cfg.fallbackYear
            if e.valid then some ems else none
        let isDl := isDeadlineT line
        let hasTT := timeTokT line
        let hasTime := r.rstart.certHour || r.rstart.certMinute || hasRange
                        || hasTT
        let endMs : Option Int :=
          if !hasRange && hasTime && isDl then none
          else if !hasRange && hasTime && !isDl then
            some (startMs + coerceMinutes cfg.defaultDurationMinutes * 60000)
          else rangeEnd
        let t := extractTitle line
        some { title := if t = [] then courseEventT else t
               startMs := startMs
               endMs := endMs
               allDay := !hasTime
               sourceLine := line }
      else none
    else none

/-- Resolve one line against a (non-faulting) extraction capability. -/
def resolveLine (cfg : Config) (extract : Str → List ChronoResult)
    (line : Str) : Option PEvent :=
  resolveCore cfg line (effResults cfg extract line)

/-- The dedup key `title + "|" + start-ISO-string` of a resolved event. -/
def evKey (e : PEvent) : Str := e.title ++ '|' :: toISO e.startMs

/-- `Map.prototype.set`: update the value in place when the key exists,
append otherwise. -/
def updKey : List (Str × PEvent) → Str → PEvent → List (Str × PEvent)
  | [], k, v => [(k, v)]
  | (k', v') :: rest, k, v =>
    if k' = k then (k', v) :: rest else (k', v') :: updKey rest k v

/-- The dedup fold step. -/
def dstep (m : List (Str × PEvent)) (e : PEvent) : List (Str × PEvent) :=
  updKey m (evKey e) e

/-- `Array.from(new Map(out.map(e => [key(e), e])).values())`: fold the
events through `Map.set`, then take the values in key order. -/
def dedup (out : List PEvent) : List PEvent :=
  (out.foldl dstep []).map fun p => p.2

/-- Split text on `/\r?\n/` (`acc` holds the current line reversed). -/
def splitNL (acc : Str) : Str → List Str
  | [] => [acc.reverse]
  | '\r' :: '\n' :: rest => acc.reverse :: splitNL [] rest
  | '\n' :: rest => acc.reverse :: splitNL [] rest
  | c :: rest => splitNL (c :: acc) rest

/-- The line list the route builds: split, trim, drop blanks, keep only
date-looking lines. -/
def routeLines (text : Str) : List Str :=
  ((((splitNL [] text).map jsTrim).filter fun l => l ≠ []).filter isDatey)

/-- The resolver loop, with the extraction capability allowed to fault:
a fault anywhere aborts to the route's catch-all. -/
def runLines (cfg : Config) (ext : Str → Except Unit (List ChronoResult)) :
    List Str → List PEvent → Except Unit (List PEvent)
  | [], acc => .ok acc
  | l :: ls, acc => do
    let first ← ext l
    let results ←
      if first = [] ∧ isDeadlineT l ∧ timeTokT l = false ∧
          cfg.defaultTime ≠ [] then
        ext (l ++ ' ' :: cfg.defaultTime)
      else pure first
    match resolveCore cfg l results with
    | none => runLines cfg ext ls acc
    | some ev => runLines cfg ext ls (acc ++ [ev])

/-- The body of the route's `try` block after the empty-text guard. -/
def parseBodyE (cfg : Config) (ext : Str → Except Unit (List ChronoResult))
    (text : Str) : Except Unit (List PEvent) := do
  let out ← runLines cfg ext (routeLines text) []
  pure (dedup out)

/-- The parse route's entry point: empty (falsy) text returns `[]`, a fault
anywhere is caught and also returns `[]`; otherwise the deduplicated
resolved events. -/
def parsePost (cfg : Config) (ext : Str → Except Unit (List ChronoResult))
    (text : Str) : List PEvent :=
  if text = [] then []
  else
    match parseBodyE cfg ext text with
    | .ok l => l
    | .error _ => []

/-- Lift a non-faulting extraction capability into the faulting interface. -/
def pureExt (f : Str → List ChronoResult) :
    Str → Except Unit (List ChronoResult) := fun s => .ok (f s)

/-! ### The calendar serializer (`src/lib/ics.ts`) -/

/-- An event as `makeICS` consumes it. -/
structure EventLike where
  title : Str
  startMs : Int
  endMs : Option Int
  allDay : Bool
  description : Option Str
deriving DecidableEq

/-- Replace every occurrence of a character by a string (a global
single-character regex replace). -/
def escChar (c : Char) (rep : Str) (s : Str) : Str :=
  s.flatMap fun x => if x == c then rep else [x]

/-- `esc` from `ics.ts`: escape backslash, newline, comma and semicolon,
in that order. -/
def escICS (s : Str) : Str :=
  escChar ';' ['\\', ';']
    (escChar ',' ['\\', ','] (escChar '\n' ['\\', 'n']
      (escChar '\\' ['\\', '\\'] s)))

/-- `fmtDate`: `YYYYMMDD` (year unpadded, month and day two digits). -/
def fmtDate (ms : Int) : Str :=
  let c := decomposeMs ms
  intToStr c.y ++ pad2 c.mo ++ pad2 c.d

/-- `fmtDateTime`: `fmtDate` plus `THHMM00` (seconds hard-coded to zero). -/
def fmtDateTime (ms : Int) : Str :=
  let c := decomposeMs ms
  fmtDate ms ++ 'T' :: (pad2 c.h ++ pad2 c.mi ++ ['0', '0'])

/-- `date-fns` `addDays` in the naive local model. -/
def addDaysMs (ms : Int) (n : Int) : Int := ms + n * msPerDay

/-- `date-fns` `addMinutes` in the naive local model. -/
def addMinutesMs (ms : Int) (n : Int) : Int := ms + n * 60000

/-- The lines `makeICS` pushes for one event (`now` is the ambient clock
passed explicitly, `i` the event's index). -/
def eventLines (now : Int) (i : Nat) (e : EventLike) : List Str :=
  ["BEGIN:VEVENT".toList,
   "UID:".toList ++ intToStr now ++ '-' :: natToStr i ++
     "@syllabus.local".toList,
   "SUMMARY:".toList ++ escICS e.title,
   "DTSTAMP:".toList ++ fmtDateTime now] ++
  (if e.allDay then
    ["DTSTART;VALUE=DATE:".toList ++ fmtDate e.startMs,
     "DTEND;VALUE=DATE:".toList ++ fmtDate (addDaysMs (e.endMs.getD e.startMs) 1)]
  else
    ["DTSTART:".toList ++ fmtDateTime e.startMs,
     "DTEND:".toList ++ fmtDateTime (e.endMs.getD (addMinutesMs e.startMs 60))]) ++
  (match e.description with
   | some d => ["DESCRIPTION:".toList ++ escICS d]
   | none => []) ++
  ["STATUS:CONFIRMED".toList, "END:VEVENT".toList]

/-- The header lines of the calendar. -/
def icsHeader (name : Str) : List Str :=
  ["BEGIN:VCALENDAR".toList, "VERSION:2.0".toList,
   "PRODID:-//SyllabusToCalendar//EN".toList, "CALSCALE:GREGORIAN".toList,
   "NAME:".toList ++ escICS name, "X-WR-CALNAME:".toList ++ escICS name]

/-- All lines of the calendar export, in `makeICS` push order. -/
def makeICSLines (now : Int) (events : List EventLike) (name : Str) :
    List Str :=
  icsHeader name ++
    (events.enum.flatMap fun p => eventLines now p.1 p.2) ++
    ["END:VCALENDAR".toList]

/-- `makeICS`: the lines joined with CRLF. -/
def makeICS (now : Int) (events : List EventLike) (name : Str) : Str :=
  joinSep ['\r', '\n'] (makeICSLines now events name)

/-! ### Dedup semantics

`new Map(pairs)` processes the pairs in order with `Map.set`: a repeated
key keeps its original position but takes the latest value.  The lemmas
below characterize the fold over `updKey` accordingly. -/

/-- The keys of the association list, in order. -/
def keysOf (m : List (Str × PEvent)) : List Str := m.map fun p => p.1

/-- First-match lookup in the association list. -/
def lookupK : List (Str × PEvent) → Str → Option PEvent
  | [], _ => none
  | (k', v) :: rest, k => if k' = k then some v else lookupK rest k

/-- The last event of the list whose dedup key is `k`. -/
def lastKeyed (k : Str) (l : List PEvent) : Option PEvent :=
  (l.filter fun e => decide (evKey e = k)).getLast?

/-- The distinct elements of a list, keeping first occurrences in order;
`seen` accumulates the keys already emitted. -/
def firstOccAux (seen : List Str) : List Str → List Str
  | [] => []
  | k :: ks =>
    if k ∈ seen then firstOccAux seen ks
    else k :: firstOccAux (k :: seen) ks

/-- The dedup map is well-formed: keys are distinct and every entry's key
is its value's dedup key. -/
def wfM (m : List (Str × PEvent)) : Prop :=
  (keysOf m).Nodup ∧ ∀ p ∈ m, evKey p.2 = p.1


@[simp] theorem keysOf_nil : keysOf [] = [] := rfl

@[simp] theorem keysOf_cons (p : Str × PEvent) (m : List (Str × PEvent)) :
    keysOf (p :: m) = p.1 :: keysOf m := rfl

theorem keysOf_updKey (m : List (Str × PEvent)) (k : Str) (v : PEvent) :
    keysOf (updKey m k v) =
      if k ∈ keysOf m then keysOf m else keysOf m ++ [k] := by
  induction m with
  | nil => simp [updKey]
  | cons p rest ih =>
    obtain ⟨k', v'⟩ := p
    by_cases h : k' = k
    · subst h
      simp [updKey]
    · simp only [updKey, if_neg h, keysOf_cons, List.mem_cons]
      rw [ih]
      by_cases hm : k ∈ keysOf rest
      · simp [hm, Ne.symm h]
      · simp [hm, Ne.symm h]

theorem lookupK_updKey (m : List (Str × PEvent)) (k k' : Str) (v : PEvent) :
    lookupK (updKey m k v) k' = if k' = k then some v else lookupK m k' := by
  induction m with
  | nil =>
    by_cases h : k' = k
    · simp [updKey, lookupK, h]
    · simp [updKey, lookupK, h]
      exact fun hh => h hh.symm
  | cons p rest ih =>
    obtain ⟨k₀, v₀⟩ := p
    by_cases h : k₀ = k
    · subst h
      by_cases h' : k' = k₀
      · subst h'; simp [updKey, lookupK]
      · have h2 : ¬ k₀ = k' := fun hh => h' hh.symm
        simp [updKey, lookupK, h', h2]
    · by_cases h' : k₀ = k'
      · subst h'
        have h2 : ¬ k₀ = k := h
        simp [updKey, lookupK, h, h2, fun hh : k₀ = k => h hh]
      · simp [updKey, lookupK, h, h', ih]


/-- `lastKeyed` over a cons: the tail's last match wins. -/
theorem lastKeyed_cons (k : Str) (e : PEvent) (t : List PEvent) :
    lastKeyed k (e :: t) =
      match lastKeyed k t with
      | some x => some x
      | none => if evKey e = k then some e else none := by
  unfold lastKeyed
  by_cases hp : evKey e = k
  · rw [List.filter_cons_of_pos (by simpa using hp)]
    cases hft : t.filter fun x => decide (evKey x = k) with
    | nil => simp [hft, hp]
    | cons y ys =>
      obtain ⟨x, hx⟩ := Option.isSome_iff_exists.mp
        (List.getLast?_isSome.mpr (List.cons_ne_nil y ys))
      rw [List.getLast?_cons_cons, hx]
  · rw [List.filter_cons_of_neg (by simpa using hp)]
    cases hft : t.filter fun x => decide (evKey x = k) with
    | nil => simp [hp]
    | cons y ys =>
      obtain ⟨x, hx⟩ := Option.isSome_iff_exists.mp
        (List.getLast?_isSome.mpr (List.cons_ne_nil y ys))
      rw [hx]

/-- Lookup in the dedup fold: the last occurrence with the queried key
wins, falling back to the accumulator. -/
theorem lookupK_fold (l : List PEvent) :
    ∀ (m : List (Str × PEvent)) (k : Str),
      lookupK (l.foldl dstep m) k =
        match lastKeyed k l with
        | some x => some x
        | none => lookupK m k := by
  induction l with
  | nil => intro m k; simp [lastKeyed, lookupK]
  | cons e t ih =>
    intro m k
    rw [List.foldl_cons, ih, lastKeyed_cons]
    cases lastKeyed k t with
    | some x => rfl
    | none =>
      simp only [dstep, lookupK_updKey]
      by_cases h : k = evKey e
      · simp [h]
      · rw [if_neg h, if_neg fun hh => h hh.symm]


instance : Inhabited PEvent := ⟨⟨[], 0, none, false, []⟩⟩

/-- `updKey` with a value stored under its own key preserves
well-formedness. -/
theorem wfM_updKey (m : List (Str × PEvent)) (v : PEvent)
    (h : wfM m) : wfM (updKey m (evKey v) v) := by
  obtain ⟨hnd, hpair⟩ := h
  constructor
  · rw [keysOf_updKey]
    split
    · exact hnd
    · next hc => simp [List.nodup_append, hnd, hc]
  · intro p hp
    clear hnd
    induction m with
    | nil => simp only [updKey, List.mem_singleton] at hp; simp [hp]
    | cons q rest ih =>
      obtain ⟨k₀, v₀⟩ := q
      by_cases h : k₀ = evKey v
      · rw [updKey, if_pos h] at hp
        rcases List.mem_cons.mp hp with h' | h'
        · rw [h']; exact h.symm
        · exact hpair p (List.mem_cons_of_mem _ h')
      · rw [updKey, if_neg h] at hp
        rcases List.mem_cons.mp hp with h' | h'
        · exact h' ▸ hpair _ (List.mem_cons_self _ _)
        · exact ih (fun q hq => hpair q (List.mem_cons_of_mem _ hq)) h'

/-- The dedup fold preserves well-formedness. -/
theorem wfM_fold (l : List PEvent) :
    ∀ m : List (Str × PEvent), wfM m → wfM (l.foldl dstep m) := by
  induction l with
  | nil => intro m h; exact h
  | cons e t ih => intro m h; exact ih _ (wfM_updKey m e h)

/-- In a well-formed map, every stored value is found under its own key. -/
theorem lookupK_self_of_mem (m : List (Str × PEvent)) (u : PEvent)
    (hwf : wfM m) (hm : u ∈ m.map fun p => p.2) :
    lookupK m (evKey u) = some u := by
  induction m with
  | nil => simp at hm
  | cons p rest ih =>
    obtain ⟨hnd, hpair⟩ := hwf
    obtain ⟨k₀, v₀⟩ := p
    rw [List.map_cons] at hm
    rcases List.mem_cons.mp hm with h | h
    · have hk : evKey v₀ = k₀ := hpair _ (List.mem_cons_self _ _)
      rw [h, lookupK, if_pos hk.symm]
    · have hk₀ : evKey v₀ = k₀ := hpair _ (List.mem_cons_self _ _)
      have hnd' := List.nodup_cons.mp (by simpa using hnd)
      have hrest : lookupK rest (evKey u) = some u :=
        ih ⟨hnd'.2, fun q hq => hpair q (List.mem_cons_of_mem _ hq)⟩ h
      rw [lookupK]
      split
      · next heq =>
        exfalso
        obtain ⟨q, hq, hq2⟩ := List.exists_of_mem_map h
        have hqk : evKey q.2 = q.1 := hpair q (List.mem_cons_of_mem _ hq)
        have hmem : evKey u ∈ keysOf rest := by
          have h1 : q.1 ∈ keysOf rest := List.mem_map_of_mem _ hq
          rw [← hqk, hq2] at h1
          exact h1
        exact hnd'.1 (heq ▸ hmem)
      · exact hrest

/-- Lookup results are stored values. -/
theorem mem_of_lookupK (m : List (Str × PEvent)) (k : Str) (u : PEvent)
    (h : lookupK m k = some u) : u ∈ m.map fun p => p.2 := by
  induction m with
  | nil => simp [lookupK] at h
  | cons p rest ih =>
    obtain ⟨k₀, v₀⟩ := p
    rw [lookupK] at h
    split at h
    · cases h; simp
    · simpa using Or.inr (by simpa using ih h)

/-- In a well-formed map, lookup only answers under the value's own key. -/
theorem evKey_of_lookupK (m : List (Str × PEvent)) (k : Str) (u : PEvent)
    (hwf : wfM m) (h : lookupK m k = some u) : evKey u = k := by
  induction m with
  | nil => simp [lookupK] at h
  | cons p rest ih =>
    obtain ⟨hnd, hpair⟩ := hwf
    obtain ⟨k₀, v₀⟩ := p
    rw [lookupK] at h
    split at h
    · next heq => cases h; rw [hpair _ (List.mem_cons_self _ _), heq]
    · exact ih ⟨(List.nodup_cons.mp (by simpa using hnd)).2,
        fun q hq => hpair q (List.mem_cons_of_mem _ hq)⟩ h


/-- `firstOccAux` only depends on which keys `seen` contains. -/
theorem firstOccAux_congr (l : List Str) :
    ∀ s₁ s₂ : List Str, (∀ x, x ∈ s₁ ↔ x ∈ s₂) →
      firstOccAux s₁ l = firstOccAux s₂ l := by
  induction l with
  | nil => intro _ _ _; rfl
  | cons k ks ih =>
    intro s₁ s₂ h
    rw [firstOccAux, firstOccAux]
    by_cases hk : k ∈ s₁
    · rw [if_pos hk, if_pos ((h k).mp hk), ih s₁ s₂ h]
    · rw [if_neg hk, if_neg (fun hh => hk ((h k).mpr hh))]
      rw [ih (k :: s₁) (k :: s₂) fun x => by simp [h x]]

/-- The key list of the dedup fold: keys appear in first-occurrence order. -/
theorem keysOf_fold (l : List PEvent) :
    ∀ m : List (Str × PEvent),
      keysOf (l.foldl dstep m) =
        keysOf m ++ firstOccAux (keysOf m) (l.map evKey) := by
  induction l with
  | nil => intro m; simp [firstOccAux]
  | cons e t ih =>
    intro m
    rw [List.foldl_cons, ih, List.map_cons, firstOccAux]
    rw [dstep, keysOf_updKey]
    by_cases hc : evKey e ∈ keysOf m
    · rw [if_pos hc, if_pos hc]
    · rw [if_neg hc, if_neg hc, List.append_assoc, List.singleton_append]
      congr 1
      congr 1
      refine firstOccAux_congr _ _ _ fun x => ?_
      simp [Or.comm]


/-! ### Claim C1: deduplication -/

/-- Concrete instant shared by the two duplicate-producing lines. -/
def dupMs : Int := mkMs 2025 10 2 23 59

/-- Modelled from the spec: the behavior of the date/time-extraction
capability (chrono-node, external to the repository) on the two example
lines "10/02 11:59pm — HW 1" and "Oct 2 11:59pm — HW 1": both carry an
explicit month, day, hour and minute but no explicit year, and no range. -/
def dupExt : Str → List ChronoResult := fun s =>
  if s = "10/02 11:59pm — HW 1".toList ∨ s = "Oct 2 11:59pm — HW 1".toList
  then [⟨⟨dupMs, true, false, true, true, true, true⟩, none⟩]
  else []

/-- Configuration with fallback year 2025 and the defaults. -/
def dupCfg : Config := ⟨2025, none, "23:59".toList⟩

/-- C1 counterexample: two lines producing the same `(title, start)` pair
collapse to one event, but the surviving event carries the SECOND line's
`sourceLine`, not the first occurrence's: `Map.prototype.set` overwrites
the value of an existing key.  The claim's "the first occurrence in
original input order is kept — including its sourceLine" is false. -/
theorem claim_C1_cex :
    parsePost dupCfg (pureExt dupExt)
        ("10/02 11:59pm — HW 1".toList ++ '
' :: "Oct 2 11:59pm — HW 1".toList) =
      [⟨"HW 1".toList, dupMs, some (dupMs + 3600000), false,
        "Oct 2 11:59pm — HW 1".toList⟩]
    ∧ "Oct 2 11:59pm — HW 1".toList ≠ "10/02 11:59pm — HW 1".toList := by
  constructor
  · decide
  · decide

/-- C1 (amended): after resolving all lines, exactly one event survives
per distinct `(title, start-instant-as-canonical-string)` pair (the dedup
key): the deduplicated keys are distinct and ordered by first occurrence,
every resolved event's pair is represented, and the surviving event for a
pair is the LAST occurrence in original input order (so a later duplicate
overwrites the first occurrence's fields, including `sourceLine`). -/
theorem claim_C1 (out : List PEvent) :
    ((dedup out).map evKey).Nodup
    ∧ (dedup out).map evKey = firstOccAux [] (out.map evKey)
    ∧ (∀ u ∈ dedup out, lastKeyed (evKey u) out = some u)
    ∧ (∀ e ∈ out, ∃ u ∈ dedup out, evKey u = evKey e) := by
  have hwf : wfM (out.foldl dstep []) :=
    wfM_fold out [] ⟨List.nodup_nil, by simp⟩
  have hkeys : (dedup out).map evKey = keysOf (out.foldl dstep []) := by
    rw [dedup, List.map_map]
    exact List.map_congr_left fun p hp => hwf.2 p hp
  refine ⟨?_, ?_, ?_, ?_⟩
  · rw [hkeys]; exact hwf.1
  · rw [hkeys, keysOf_fold out []]; simp
  · intro u hu
    have hl : lookupK (out.foldl dstep []) (evKey u) = some u :=
      lookupK_self_of_mem _ u hwf (by simpa [dedup] using hu)
    have hfold := lookupK_fold out [] (evKey u)
    rw [hl] at hfold
    cases hlast : lastKeyed (evKey u) out with
    | none => rw [hlast] at hfold; simp [lookupK] at hfold
    | some x =>
      rw [hlast] at hfold
      cases hfold
      rfl
  · intro e he
    have hfil : e ∈ out.filter fun x => decide (evKey x = evKey e) :=
      List.mem_filter.mpr ⟨he, by simp⟩
    obtain ⟨u, hu⟩ := Option.isSome_iff_exists.mp
      (List.getLast?_isSome.mpr (List.ne_nil_of_mem hfil))
    have hu' : lastKeyed (evKey e) out = some u := hu
    have hlk : lookupK (out.foldl dstep []) (evKey e) = some u := by
      rw [lookupK_fold out [] (evKey e), hu']
    refine ⟨u, ?_, evKey_of_lookupK _ _ u hwf hlk⟩
    simpa [dedup] using mem_of_lookupK _ _ u hlk


/-- A trivial event used to instantiate `claim_C1` in its witness. -/
def wEv : PEvent := ⟨"A".toList, 0, none, true, "a".toList⟩

/-- C1 witness: the amended dedup property at a concrete event list. -/
theorem claim_C1_witness : ((dedup [wEv, wEv]).map evKey).Nodup :=
  (claim_C1 [wEv, wEv]).1

/-! ### Claim C2: the end-instant policy for timed no-range lines -/

/-- Modelled from the spec: the extraction capability on the line
"Quiz 2 10/7 9am" — an explicit month, day, hour and minute, certain
hour/minute, no explicit year, no range. -/
def quizExt : Str → List ChronoResult := fun s =>
  if s = "Quiz 2 10/7 9am".toList
  then [⟨⟨mkMs 2025 10 7 9 0, true, false, true, true, true, true⟩, none⟩]
  else []

/-- Configuration supplying `defaultDurationMinutes = 0`. -/
def zeroCfg : Config := ⟨2025, some 0, "23:59".toList⟩

/-- The event the resolver emits for the quiz line under `zeroCfg`. -/
def quizEv : PEvent :=
  ⟨"Quiz 2 10/7 9am".toList, mkMs 2025 10 7 9 0,
   some (mkMs 2025 10 7 9 0 + 3600000), false, "Quiz 2 10/7 9am".toList⟩

/-- C2 counterexample: with `defaultDurationMinutes` supplied as `0`, the
claim requires `end = start + 0`, but the code computes
`Number(defaultDurationMinutes) || 60`, so the emitted end is
`start + 60` minutes.  The claim as stated is false for duration 0. -/
theorem claim_C2_cex :
    resolveLine zeroCfg quizExt "Quiz 2 10/7 9am".toList = some quizEv
    ∧ quizEv.endMs ≠ some (quizEv.startMs + 0 * 60000) := by
  constructor
  · decide
  · decide

/-- C2 (amended): for every resolved line with a time and no explicit
range: if the line is a deadline, the emitted event has no end; if it is
not a deadline, the emitted event's end equals start plus the coerced
duration — `defaultDurationMinutes` when it coerces to a nonzero number,
and 60 when it is absent, zero, or not coercible to a number. -/
theorem claim_C2 (cfg : Config) (ext : Str → List ChronoResult) (line : Str)
    (r : ChronoResult) (rest : List ChronoResult) (ev : PEvent)
    (heff : effResults cfg ext line = r :: rest)
    (hres : resolveLine cfg ext line = some ev)
    (hrend : r.rend = none)
    (ht : (r.rstart.certHour || r.rstart.certMinute || timeTokT line) = true) :
    (isDeadlineT line = true → ev.endMs = none)
    ∧ (isDeadlineT line = false →
        ev.endMs = some (ev.startMs +
          coerceMinutes cfg.defaultDurationMinutes * 60000)) := by
  rw [resolveLine, heff] at hres
  simp only [resolveCore] at hres
  split at hres
  · split at hres
    · cases hres
      constructor
      · intro hdl; simp [hrend, hdl, ht]
      · intro hdl; simp [hrend, hdl, ht]
    · cases hres
  · cases hres

/-- C2 witness: the amended policy applied at the concrete quiz line under
`zeroCfg`, with every hypothesis discharged by evaluation. -/
theorem claim_C2_witness :
    (isDeadlineT "Quiz 2 10/7 9am".toList = true → quizEv.endMs = none)
    ∧ (isDeadlineT "Quiz 2 10/7 9am".toList = false →
        quizEv.endMs = some (quizEv.startMs +
          coerceMinutes zeroCfg.defaultDurationMinutes * 60000)) :=
  claim_C2 zeroCfg quizExt "Quiz 2 10/7 9am".toList
    ⟨⟨mkMs 2025 10 7 9 0, true, false, true, true, true, true⟩, none⟩ []
    quizEv (by decide) (by decide) (by decide) (by decide)


/-! ### Claim C3: the all-day flag -/

/-- Modelled from the spec: the extraction capability on "Essay 10/8" — an
explicit month and day, no explicit year, hour and minute inferred (not
certain), no range. -/
def c3r : ChronoResult :=
  ⟨⟨mkMs 2025 10 8 12 0, true, false, true, true, false, false⟩, none⟩

/-- The capability returning `c3r` for the essay line. -/
def c3Ext : Str → List ChronoResult := fun s =>
  if s = "Essay 10/8".toList then [c3r] else []

/-- The event the resolver emits for the essay line. -/
def c3Ev : PEvent :=
  ⟨"Essay 10/8".toList, mkMs 2025 10 8 12 0, none, true, "Essay 10/8".toList⟩

/-- C3: for every emitted event, `allDay` is true iff no time-of-day
information was found anywhere in the line — no certain hour or minute
from extraction, no range, and no lexical time token — and whenever
`allDay` is true the event's end is absent. -/
theorem claim_C3 (cfg : Config) (ext : Str → List ChronoResult) (line : Str)
    (r : ChronoResult) (rest : List ChronoResult) (ev : PEvent)
    (heff : effResults cfg ext line = r :: rest)
    (hres : resolveLine cfg ext line = some ev) :
    (ev.allDay = true ↔
      (r.rstart.certHour || r.rstart.certMinute || r.rend.isSome
        || timeTokT line) = false)
    ∧ (ev.allDay = true → ev.endMs = none) := by
  rw [resolveLine, heff] at hres
  simp only [resolveCore] at hres
  split at hres
  · split at hres
    · cases hres
      constructor
      · simp
      · intro h
        simp only [Bool.not_eq_true'] at h
        have hn : r.rend = none := by
          cases hr : r.rend with
          | none => rfl
          | some e => rw [hr] at h; simp at h
        simp only [Bool.or_eq_false_iff] at h
        obtain ⟨⟨⟨h1, h2⟩, h3⟩, h4⟩ := h
        simp [h1, h2, h3, h4, hn]
    · cases hres
  · cases hres

/-- C3 witness: the biconditional at the concrete essay line, whose
extraction carries no certain hour or minute and no range. -/
theorem claim_C3_witness :
    (c3Ev.allDay = true ↔
      (c3r.rstart.certHour || c3r.rstart.certMinute || c3r.rend.isSome
        || timeTokT "Essay 10/8".toList) = false)
    ∧ (c3Ev.allDay = true → c3Ev.endMs = none) :=
  claim_C3 dupCfg c3Ext "Essay 10/8".toList c3r [] c3Ev (by decide) (by decide)

/-! ### Claim C4: the deadline-time rescue -/

/-- Modelled from the spec: the extraction capability around the example
"HW2 due 10/9" — chrono-node finds nothing on the bare line (so the first
parse attempt is empty), and on the line with the default time "23:59"
appended it finds an explicit month, day, hour and minute with the year
inferred from the reference date (not explicit in the text), no range. -/
def hw2Ext : Str → List ChronoResult := fun s =>
  if s = "HW2 due 10/9 23:59".toList
  then [⟨⟨mkMs 2025 10 9 23 59, true, false, true, true, true, true⟩, none⟩]
  else []

/-- C4: on "HW2 due 10/9" (a deadline with no time token) with default
time "23:59" and fallback year 2025, the first extraction attempt is
empty, the deadline-time rescue retries with the default time appended,
and the route emits exactly one event with start 2025-10-09T23:59, no
end, and `allDay = false`. -/
theorem claim_C4 :
    hw2Ext "HW2 due 10/9".toList = []
    ∧ effResults dupCfg hw2Ext "HW2 due 10/9".toList =
        hw2Ext ("HW2 due 10/9".toList ++ ' ' :: dupCfg.defaultTime)
    ∧ parsePost dupCfg (pureExt hw2Ext) "HW2 due 10/9".toList =
        [⟨"HW2 due 10/9".toList, mkMs 2025 10 9 23 59, none, false,
          "HW2 due 10/9".toList⟩] :=
  ⟨by decide, by decide, by decide⟩


/-! ### Claim C6: month/day certainty -/

/-- Modelled from the spec: an extraction result whose start lacks a
certain day (month certain, day inferred). -/
def c6r : ChronoResult := ⟨⟨0, true, false, true, false, false, false⟩, none⟩

/-- A capability returning the uncertain result for every line. -/
def c6Ext : Str → List ChronoResult := fun _ => [c6r]

/-- C6: every emitted event comes from an extraction start with certain
month and day, and a line whose extracted start lacks a certain month or
day is discarded (no event). -/
theorem claim_C6 :
    (∀ (cfg : Config) (ext : Str → List ChronoResult) (line : Str)
        (ev : PEvent), resolveLine cfg ext line = some ev →
        ∃ r rest, effResults cfg ext line = r :: rest ∧
          r.rstart.certMonth = true ∧ r.rstart.certDay = true)
    ∧ (∀ (cfg : Config) (ext : Str → List ChronoResult) (line : Str)
        (r : ChronoResult) (rest : List ChronoResult),
        effResults cfg ext line = r :: rest →
        (r.rstart.certMonth && r.rstart.certDay) = false →
        resolveLine cfg ext line = none) := by
  constructor
  · intro cfg ext line ev hres
    rw [resolveLine] at hres
    cases heff : effResults cfg ext line with
    | nil => rw [heff] at hres; cases hres
    | cons r rest =>
      rw [heff] at hres
      refine ⟨r, rest, rfl, ?_⟩
      simp only [resolveCore] at hres
      split at hres
      · split at hres
        · next hc => exact Bool.and_eq_true _ _ |>.mp hc
        · cases hres
      · cases hres
  · intro cfg ext line r rest heff hc
    rw [resolveLine, heff]
    simp only [resolveCore]
    split
    · simp [hc]
    · rfl

/-- C6 witness: a line whose extraction lacks a certain day resolves to
nothing. -/
theorem claim_C6_witness :
    resolveLine dupCfg c6Ext "Lab 4 10/6".toList = none :=
  claim_C6.2 dupCfg c6Ext "Lab 4 10/6".toList c6r [] (by decide) (by decide)

/-! ### Claim C7: invalid range ends -/

/-- Modelled from the spec: the extraction capability on "Lab 10/6 3pm"
producing a range whose end fails `isValid` (start certain in month, day,
hour and minute; year inferred). -/
def c7r : ChronoResult :=
  ⟨⟨mkMs 2025 10 6 15 0, true, false, true, true, true, true⟩,
   some ⟨mkMs 2025 10 6 17 0, false, false, true, true, true, true⟩⟩

/-- The capability returning `c7r` for the lab line. -/
def c7Ext : Str → List ChronoResult := fun s =>
  if s = "Lab 10/6 3pm".toList then [c7r] else []

/-- The event the resolver emits for the lab line: start kept, end absent. -/
def c7Ev : PEvent :=
  ⟨"Lab 10/6 3pm".toList, mkMs 2025 10 6 15 0, none, false,
   "Lab 10/6 3pm".toList⟩

/-- C7 counterexample: a timed non-deadline line whose extracted range end
is invalid is emitted WITHOUT an end: `hasRange` stays true after the end
is dropped, so the claim's "the no-range end policy then applies (end =
start + default duration)" is false. -/
theorem claim_C7_cex :
    resolveLine dupCfg c7Ext "Lab 10/6 3pm".toList = some c7Ev
    ∧ c7Ev.endMs = none
    ∧ c7Ev.endMs ≠ some (c7Ev.startMs +
        coerceMinutes dupCfg.defaultDurationMinutes * 60000) :=
  ⟨by decide, by decide, by decide⟩

/-- C7 (amended): when the extraction produced a range end that is invalid,
the end is dropped and the event is still emitted with its start kept as a
single instant; but the line still counts as ranged, so the no-range end
policy does NOT apply: the emitted event has no end even for timed
non-deadline lines, and `allDay` is false. -/
theorem claim_C7 (cfg : Config) (ext : Str → List ChronoResult) (line : Str)
    (r : ChronoResult) (rest : List ChronoResult) (e : ChronoComponent)
    (ev : PEvent)
    (heff : effResults cfg ext line = r :: rest)
    (hrend : r.rend = some e) (hv : e.valid = false)
    (hres : resolveLine cfg ext line = some ev) :
    ev.endMs = none ∧ ev.allDay = false := by
  rw [resolveLine, heff] at hres
  simp only [resolveCore] at hres
  split at hres
  · split at hres
    · cases hres
      constructor
      · simp [hrend, hv]
      · simp [hrend]
    · cases hres
  · cases hres

/-- C7 witness: the amended behavior at the concrete lab line. -/
theorem claim_C7_witness : c7Ev.endMs = none ∧ c7Ev.allDay = false :=
  claim_C7 dupCfg c7Ext "Lab 10/6 3pm".toList c7r []
    ⟨mkMs 2025 10 6 17 0, false, false, true, true, true, true⟩ c7Ev
    (by decide) (by decide) (by decide) (by decide)

/-! ### Claim C10: duration coercion -/

/-- C10: when `defaultDurationMinutes` is supplied as 0 or is not coercible
to a number, a timed non-deadline no-range line gets end = start + 60
minutes, and never a zero-length event. -/
theorem claim_C10 (cfg : Config) (ext : Str → List ChronoResult) (line : Str)
    (r : ChronoResult) (rest : List ChronoResult) (ev : PEvent)
    (hdd : cfg.defaultDurationMinutes = some 0 ∨
           cfg.defaultDurationMinutes = none)
    (heff : effResults cfg ext line = r :: rest)
    (hres : resolveLine cfg ext line = some ev)
    (hrend : r.rend = none)
    (ht : (r.rstart.certHour || r.rstart.certMinute || timeTokT line) = true)
    (hdl : isDeadlineT line = false) :
    ev.endMs = some (ev.startMs + 60 * 60000)
    ∧ ev.endMs ≠ some ev.startMs := by
  have hco : coerceMinutes cfg.defaultDurationMinutes = 60 := by
    rcases hdd with h | h <;> simp [h, coerceMinutes]
  rw [resolveLine, heff] at hres
  simp only [resolveCore] at hres
  split at hres
  · split at hres
    · cases hres
      constructor
      · simp [hrend, hdl, ht, hco]
      · simp [hrend, hdl, ht, hco]
    · cases hres
  · cases hres

/-- C10 witness: the concrete quiz line under `defaultDurationMinutes = 0`
gets a 60-minute end, not a zero-length event. -/
theorem claim_C10_witness :
    quizEv.endMs = some (quizEv.startMs + 60 * 60000)
    ∧ quizEv.endMs ≠ some quizEv.startMs :=
  claim_C10 zeroCfg quizExt "Quiz 2 10/7 9am".toList
    ⟨⟨mkMs 2025 10 7 9 0, true, false, true, true, true, true⟩, none⟩ []
    quizEv (Or.inl rfl) (by decide) (by decide) (by decide) (by decide)
    (by decide)

/-! ### Claim C9: empty input and total failure -/

/-- A capability that faults on every call, modelling an unexpected
extraction failure. -/
def failExt : Str → Except Unit (List ChronoResult) := fun _ => .error ()

/-- C9: empty (falsy) input text returns the empty sequence, and whenever
the route body faults internally the catch-all also returns the empty
sequence — the entry point never propagates an error. -/
theorem claim_C9 :
    (∀ (cfg : Config) (ext : Str → Except Unit (List ChronoResult)),
        parsePost cfg ext [] = [])
    ∧ (∀ (cfg : Config) (ext : Str → Except Unit (List ChronoResult))
        (text : Str), parseBodyE cfg ext text = .error () →
        parsePost cfg ext text = []) := by
  constructor
  · intro cfg ext; rfl
  · intro cfg ext text h
    by_cases ht : text = []
    · simp [parsePost, ht]
    · simp [parsePost, ht, h]

/-- C9 witness: the empty text and a faulting capability on a retained
line both produce the empty output. -/
theorem claim_C9_witness :
    parsePost dupCfg failExt [] = []
    ∧ parsePost dupCfg failExt "exam 10/2".toList = [] :=
  ⟨claim_C9.1 dupCfg failExt,
   claim_C9.2 dupCfg failExt "exam 10/2".toList rfl⟩


/-! ### Claim C8: the serializer's start/end encoding -/

/-- Decomposing a `flatMap` over `enumFrom` at a given index. -/
theorem flatMap_enumFrom (f : Nat × EventLike → List Str) :
    ∀ (es : List EventLike) (k i : Nat) (e : EventLike),
      es.get? i = some e →
      ∃ pre post, (es.enumFrom k).flatMap f = pre ++ f (k + i, e) ++ post := by
  intro es
  induction es with
  | nil => intro k i e h; simp at h
  | cons x t ih =>
    intro k i e h
    cases i with
    | zero =>
      cases h
      exact ⟨[], (t.enumFrom (k + 1)).flatMap f, by simp [List.enumFrom]⟩
    | succ n =>
      obtain ⟨pre, post, hp⟩ := ih (k + 1) n e (by simpa using h)
      refine ⟨f (k, x) ++ pre, post, ?_⟩
      rw [show k + (n + 1) = k + 1 + n by omega]
      simp [List.enumFrom, hp]

/-- C8 (amended): every event of the serializer's input contributes one
contiguous block to the output; an all-day event is encoded date-only with
`DTEND` the day after its explicit end when present and otherwise the day
after its start; a timed event is encoded date-time with `DTEND` its
explicit end when present and otherwise start plus 60 minutes. -/
theorem claim_C8 (now : Int) (es : List EventLike) (name : Str) (i : Nat)
    (e : EventLike) (h : es.get? i = some e) :
    ∃ pre post, makeICSLines now es name =
      pre ++
      (["BEGIN:VEVENT".toList,
        "UID:".toList ++ intToStr now ++ '-' :: natToStr i ++
          "@syllabus.local".toList,
        "SUMMARY:".toList ++ escICS e.title,
        "DTSTAMP:".toList ++ fmtDateTime now] ++
       (if e.allDay then
         ["DTSTART;VALUE=DATE:".toList ++ fmtDate e.startMs,
          "DTEND;VALUE=DATE:".toList ++
            fmtDate (addDaysMs (e.endMs.getD e.startMs) 1)]
        else
         ["DTSTART:".toList ++ fmtDateTime e.startMs,
          "DTEND:".toList ++
            fmtDateTime (e.endMs.getD (addMinutesMs e.startMs 60))]) ++
       (match e.description with
        | some d => ["DESCRIPTION:".toList ++ escICS d]
        | none => []) ++
       ["STATUS:CONFIRMED".toList, "END:VEVENT".toList]) ++ post := by
  obtain ⟨pre, post, hp⟩ :=
    flatMap_enumFrom (fun p => eventLines now p.1 p.2) es 0 i e h
  refine ⟨icsHeader name ++ pre, post ++ ["END:VCALENDAR".toList], ?_⟩
  have : (0 : Nat) + i = i := by omega
  rw [this] at hp
  rw [makeICSLines, show es.enum = es.enumFrom 0 from rfl, hp]
  simp [eventLines, List.append_assoc]

/-- An all-day event whose stored end lies before its start. -/
def c8Ev : EventLike :=
  ⟨"X".toList, mkMs 2025 1 5 0 0, some (mkMs 2024 12 31 0 0), true, none⟩

/-- C8 counterexample: for an all-day event with `end < start`, the
serializer emits `DTEND` as the day after the END (`e.end ?? e.start`),
not the day after the later of end and start (which would be the day
after the start, 2025-01-06).  The claim's "day after the later of the
event's end and start" is false. -/
theorem claim_C8_cex :
    c8Ev.endMs.getD c8Ev.startMs < c8Ev.startMs
    ∧ "DTEND;VALUE=DATE:20250101".toList ∈
        makeICSLines 0 [c8Ev] "Syllabus".toList
    ∧ "DTEND;VALUE=DATE:20250106".toList ∉
        makeICSLines 0 [c8Ev] "Syllabus".toList :=
  ⟨by decide, by decide, by decide⟩

/-- A timed event with an explicit end and a description. -/
def c8Ev2 : EventLike :=
  ⟨"Y".toList, mkMs 2025 10 6 13 30, some (mkMs 2025 10 6 15 0), false,
   some "desc".toList⟩

/-- C8 witness: the block decomposition at a concrete timed event. -/
theorem claim_C8_witness :
    ∃ pre post, makeICSLines 0 [c8Ev2] "S".toList =
      pre ++
      (["BEGIN:VEVENT".toList,
        "UID:".toList ++ intToStr 0 ++ '-' :: natToStr 0 ++
          "@syllabus.local".toList,
        "SUMMARY:".toList ++ escICS c8Ev2.title,
        "DTSTAMP:".toList ++ fmtDateTime 0] ++
       (if c8Ev2.allDay then
         ["DTSTART;VALUE=DATE:".toList ++ fmtDate c8Ev2.startMs,
          "DTEND;VALUE=DATE:".toList ++
            fmtDate (addDaysMs (c8Ev2.endMs.getD c8Ev2.startMs) 1)]
        else
         ["DTSTART:".toList ++ fmtDateTime c8Ev2.startMs,
          "DTEND:".toList ++
            fmtDateTime (c8Ev2.endMs.getD (addMinutesMs c8Ev2.startMs 60))]) ++
       (match c8Ev2.description with
        | some d => ["DESCRIPTION:".toList ++ escICS d]
        | none => []) ++
       ["STATUS:CONFIRMED".toList, "END:VEVENT".toList]) ++ post :=
  claim_C8 0 [c8Ev2] "S".toList 0 c8Ev2 rfl


/-! ### Claim C5: `extractTitle` and empty titles -/

/-- The last element of a list is a member. -/
theorem mem_of_getLastOpt : ∀ {l : Str} {a : Char},
    l.getLast? = some a → a ∈ l
  | [x], a, h => by
    simp only [List.getLast?_singleton, Option.some.injEq] at h
    simp [h]
  | x :: y :: t, a, h => by
    rw [List.getLast?_cons_cons] at h
    exact List.mem_cons_of_mem _ (mem_of_getLastOpt h)

/-- A member of an element of a string list is a member of its join. -/
theorem mem_joinSep (sep : Str) : ∀ (parts : List Str) (p : Str) (c : Char),
    p ∈ parts → c ∈ p → c ∈ joinSep sep parts
  | [x], p, c, hp, hc => by
    rw [List.mem_singleton] at hp
    rw [joinSep]
    exact hp ▸ hc
  | x :: y :: t, p, c, hp, hc => by
    have hj : joinSep sep (x :: y :: t) = x ++ sep ++ joinSep sep (y :: t) := rfl
    rw [hj]
    rcases List.mem_cons.mp hp with h | h
    · exact List.mem_append.mpr (Or.inl (List.mem_append.mpr (Or.inl (h ▸ hc))))
    · exact List.mem_append.mpr
        (Or.inr (mem_joinSep sep (y :: t) p c h hc))

/-- `dropWhile` keeps every member the predicate rejects. -/
theorem mem_dropWhile (p : Char → Bool) : ∀ (l : Str) (c : Char),
    c ∈ l → p c = false → c ∈ l.dropWhile p := by
  intro l
  induction l with
  | nil => intro c hc _; cases hc
  | cons x xs ih =>
    intro c hc hp
    rw [List.dropWhile_cons]
    by_cases hx : p x = true
    · rw [if_pos hx]
      rcases List.mem_cons.mp hc with h | h
      · rw [h] at hp; rw [hp] at hx; cases hx
      · exact ih c h hp
    · rw [if_neg hx]
      exact hc

/-- A string containing a non-whitespace character does not trim to
nothing. -/
theorem jsTrim_ne_nil (s : Str) (c : Char) (hc : c ∈ s)
    (hw : isWsC c = false) : jsTrim s ≠ [] := by
  have h1 : c ∈ s.dropWhile isWsC := mem_dropWhile isWsC s c hc hw
  have h2 : c ∈ (s.dropWhile isWsC).reverse := List.mem_reverse.mpr h1
  have h3 : c ∈ (s.dropWhile isWsC).reverse.dropWhile isWsC :=
    mem_dropWhile isWsC _ c h2 hw
  exact List.ne_nil_of_mem (List.mem_reverse.mpr h3)

/-- `dropWhile` cannot lengthen a list. -/
theorem length_dropWhile_le' (p : Char → Bool) : ∀ l : Str,
    (l.dropWhile p).length ≤ l.length := by
  intro l
  induction l with
  | nil => simp
  | cons x xs ih =>
    rw [List.dropWhile_cons]
    by_cases hx : p x = true
    · rw [if_pos hx]; exact Nat.le_succ_of_le ih
    · rw [if_neg hx]

/-- A nonempty `dropWhile` result ends where the original list ends. -/
theorem getLastOpt_dropWhile (p : Char → Bool) : ∀ l : Str,
    l.dropWhile p ≠ [] → (l.dropWhile p).getLast? = l.getLast? := by
  intro l
  induction l with
  | nil => intro h; simp [List.dropWhile] at h
  | cons x xs ih =>
    intro h
    rw [List.dropWhile_cons] at h ⊢
    by_cases hx : p x = true
    · rw [if_pos hx] at h ⊢
      have hxs : xs ≠ [] := by
        intro hh
        rw [hh] at h
        simp [List.dropWhile] at h
      obtain ⟨y, t, hyt⟩ := List.exists_cons_of_ne_nil hxs
      rw [ih h, hyt, List.getLast?_cons_cons]
    · rw [if_neg hx] at h ⊢

/-- A nonempty line equal to its own trim ends in a non-whitespace
character. -/
theorem trimmed_getLast (l : Str) (h : jsTrim l = l) (hne : l ≠ []) :
    ∃ c, l.getLast? = some c ∧ isWsC c = false := by
  obtain ⟨c, hc⟩ := Option.isSome_iff_exists.mp (List.getLast?_isSome.mpr hne)
  refine ⟨c, hc, ?_⟩
  by_contra hw
  rw [Bool.not_eq_false] at hw
  have hd1ne : l.dropWhile isWsC ≠ [] := by
    intro hh
    rw [jsTrim, hh] at h
    simp at h
    exact hne h
  have hlast : (l.dropWhile isWsC).getLast? = some c :=
    (getLastOpt_dropWhile isWsC l hd1ne).symm ▸ hc
  have hhead : (l.dropWhile isWsC).reverse.head? = some c := by
    rw [List.head?_reverse]
    exact hlast
  obtain ⟨t, ht⟩ : ∃ t, (l.dropWhile isWsC).reverse = c :: t := by
    cases hr : (l.dropWhile isWsC).reverse with
    | nil => rw [hr] at hhead; cases hhead
    | cons y t =>
      rw [hr] at hhead
      cases hhead
      exact ⟨t, rfl⟩
  have hlen : (jsTrim l).length < l.length := by
    rw [jsTrim, ht, List.length_reverse, List.dropWhile_cons, if_pos hw]
    have h1 : t.length < l.length := by
      have h2 : (c :: t).length ≤ l.length := by
        rw [← ht, List.length_reverse]
        exact length_dropWhile_le' isWsC l
      simpa using h2
    exact Nat.lt_of_le_of_lt (length_dropWhile_le' isWsC t) h1
  rw [h] at hlen
  exact Nat.lt_irrefl _ hlen


/-- Dropping the head of a nonempty-tailed cons keeps the last element. -/
theorem getLastOpt_cons_ne (x : Char) (l : Str) (h : l ≠ []) :
    (x :: l).getLast? = l.getLast? := by
  obtain ⟨y, t, ht⟩ := List.exists_cons_of_ne_nil h
  rw [ht, List.getLast?_cons_cons]

/-- Same fact at the level of string lists. -/
theorem getLastOpt_consS_ne (x : Str) (l : List Str) (h : l ≠ []) :
    (x :: l).getLast? = l.getLast? := by
  obtain ⟨y, t, ht⟩ := List.exists_cons_of_ne_nil h
  rw [ht, List.getLast?_cons_cons]

/-- `splitGo` never returns the empty list of fields. -/
theorem splitGo_ne_nil : ∀ (acc l : Str), splitGo acc l ≠ [] := by
  intro acc l
  induction acc, l using splitGo.induct with
  | case1 acc a b c rest h ih =>
    rw [splitGo, if_pos h]
    exact List.cons_ne_nil _ _
  | case2 acc a b c rest h ih =>
    rw [splitGo, if_neg h]
    exact ih
  | case3 acc a => rw [splitGo]; exact List.cons_ne_nil _ _
  | case4 acc a b => rw [splitGo]; exact List.cons_ne_nil _ _
  | case5 acc => rw [splitGo]; exact List.cons_ne_nil _ _

/-- When the scanned text ends in a non-whitespace character, the last
field of `splitGo` is nonempty and ends in that same character. -/
theorem splitGo_getLast : ∀ (acc l : Str) (c : Char),
    l.getLast? = some c → isWsC c = false →
    ∃ p, (splitGo acc l).getLast? = some p ∧ p ≠ [] ∧ p.getLast? = some c := by
  intro acc l
  induction acc, l using splitGo.induct with
  | case1 acc a b c rest hg ih =>
    intro ch hl hw
    rw [splitGo, if_pos hg]
    cases hr : rest with
    | nil =>
      exfalso
      rw [hr] at hl
      rw [List.getLast?_cons_cons, List.getLast?_cons_cons,
        List.getLast?_singleton] at hl
      cases hl
      rw [Bool.and_eq_true, Bool.and_eq_true] at hg
      rw [hg.2] at hw
      cases hw
    | cons y t =>
      rw [← hr]
      have hlast : rest.getLast? = some ch := by
        rw [hr]
        rw [hr] at hl
        rw [List.getLast?_cons_cons, List.getLast?_cons_cons,
          List.getLast?_cons_cons] at hl
        exact hl
      obtain ⟨p, hp1, hp2, hp3⟩ := ih ch hlast hw
      refine ⟨p, ?_, hp2, hp3⟩
      rw [getLastOpt_consS_ne _ _ (splitGo_ne_nil [] rest), hp1]
  | case2 acc a b c rest hg ih =>
    intro ch hl hw
    rw [splitGo, if_neg hg]
    exact ih ch (by rw [← List.getLast?_cons_cons (a := a)]; exact hl) hw
  | case3 acc a =>
    intro ch hl hw
    rw [List.getLast?_singleton] at hl
    cases hl
    rw [splitGo]
    refine ⟨(a :: acc).reverse, List.getLast?_singleton _, ?_, ?_⟩
    · simp
    · rw [List.getLast?_reverse]
      rfl
  | case4 acc a b =>
    intro ch hl hw
    rw [List.getLast?_cons_cons, List.getLast?_singleton] at hl
    cases hl
    rw [splitGo]
    refine ⟨(b :: a :: acc).reverse, List.getLast?_singleton _, ?_, ?_⟩
    · simp
    · rw [List.getLast?_reverse]
      rfl
  | case5 acc =>
    intro ch hl hw
    cases hl


/-- The last element of a list of strings is a member. -/
theorem mem_of_getLastOptS : ∀ {l : List Str} {a : Str},
    l.getLast? = some a → a ∈ l
  | [x], a, h => by
    simp only [List.getLast?_singleton, Option.some.injEq] at h
    simp [h]
  | x :: y :: t, a, h => by
    rw [List.getLast?_cons_cons] at h
    exact List.mem_cons_of_mem _ (mem_of_getLastOptS h)

/-- C5 counterexample: the non-empty line "a – " (letter, space, en dash,
space) dash-splits into `["a", ""]`, and the dash branch returns the
trimmed join of the tail — the empty string — with no fallback.  The
claim "never returns empty for a non-empty line" is false. -/
theorem claim_C5_cex :
    extractTitle "a – ".toList = [] ∧ "a – ".toList ≠ [] :=
  ⟨by decide, by decide⟩

/-- C5 (amended): for every line that is trimmed and non-empty — which
all lines reaching `extractTitle` in the pipeline are, since the route
trims and drops blank lines first — `extractTitle` returns a non-empty
string. -/
theorem claim_C5 (l : Str) (htrim : jsTrim l = l) (hne : l ≠ []) :
    extractTitle l ≠ [] := by
  obtain ⟨c, hc, hcw⟩ := trimmed_getLast l htrim hne
  simp only [extractTitle]
  by_cases hlen : 1 < (splitGo [] l).length
  · rw [if_pos hlen]
    obtain ⟨p, hp1, hp2, hp3⟩ := splitGo_getLast [] l c hc hcw
    obtain ⟨x, rest, hxr⟩ :=
      List.exists_cons_of_ne_nil (splitGo_ne_nil [] l)
    have hrestne : rest ≠ [] := by
      intro hh
      rw [hxr, hh] at hlen
      simp at hlen
    have hplast : rest.getLast? = some p := by
      rw [hxr, getLastOpt_consS_ne x rest hrestne] at hp1
      exact hp1
    have hcin : c ∈ joinSep dashJoinSep rest :=
      mem_joinSep dashJoinSep rest p c (mem_of_getLastOptS hplast)
        (mem_of_getLastOpt hp3)
    rw [hxr]
    exact jsTrim_ne_nil _ c hcin hcw
  · rw [if_neg hlen]
    by_cases he : jsTrim (stripRE singleTimeRe (stripRE rangeRe (stripRE
        slashRe (stripRE monthDayRe (stripRE weekdayRe l))))) = []
    · rw [if_pos he, htrim]
      exact hne
    · rw [if_neg he]
      exact he

/-- C5 witness: a concrete trimmed line gets a non-empty title. -/
theorem claim_C5_witness :
    jsTrim "Quiz 1".toList = "Quiz 1".toList ∧ "Quiz 1".toList ≠ [] ∧
      extractTitle "Quiz 1".toList ≠ [] :=
  ⟨by decide, by decide, claim_C5 "Quiz 1".toList (by decide) (by decide)⟩

end Syl
